import Mathlib

/-!
# Heimdall: a verification development for the CT log monitor

A shallow embedding of `pkg/runner/runner.go` and proofs about it.

Modelling conventions.

* A Go `string` is a list of Unicode code points (`Str`); the embedding covers
  valid UTF-8 text.
* A Go `map[string]bool` in which only `true` is ever stored (`rootDomains`,
  `seenDomain`) is the list of its keys; `len(m) == 0` is `m = []` and `m[k]`
  is `decide (k ∈ m)`.
* `int64` cursors are integers (`Int`); tree sizes and entry counts stay far
  below `2^63`, so no wrap-around is modelled.
* The functions run one call at a time: locks are not modelled, and a send on
  the task channel completes.
* File system calls succeed, and what goes to standard error (`-v`, `-debug`)
  is left out. The line scanner keeps its token limit.
-/

namespace Heimdall

/-- A Go string, as its sequence of code points. -/
abbrev Str := List Char

/-! ## `strings.Split(s, ".")` and `strings.Join(parts, ".")` -/

/-- The first label of `s` and the list of the labels after it. -/
def splitAux : Str → Str × List Str
  | [] => ([], [])
  | c :: cs =>
    if c = '.' then ([], (splitAux cs).1 :: (splitAux cs).2)
    else (c :: (splitAux cs).1, (splitAux cs).2)

/-- Go `strings.Split(s, ".")`: the labels of `s`; never empty, `[""]` for `""`. -/
def Split (s : Str) : List Str :=
  (splitAux s).1 :: (splitAux s).2

/-- Go `strings.Join(parts, ".")`. -/
def Join : List Str → Str
  | [] => []
  | [p] => p
  | p :: q :: ps => p ++ '.' :: Join (q :: ps)

/-! ## `Runner.matchingRoot` -/

/-- The loop `for i := 1; i < len(parts); i++` of `matchingRoot`, entered at
index `i` with `fuel = len(parts) - i` iterations left. -/
def matchingRootLoop (rootDomains : List Str) (parts : List Str) : Nat → Nat → Str × Bool
  | _, 0 => ([], false)
  | i, fuel + 1 =>
    if Join (parts.drop i) ∈ rootDomains then (Join (parts.drop i), true)
    else matchingRootLoop rootDomains parts (i + 1) fuel

/-- `Runner.matchingRoot` (runner.go 526-545), on the key list of `rootDomains`. -/
def matchingRoot (rootDomains : List Str) (domain : Str) : Str × Bool :=
  if rootDomains.length = 0 then ([], true)
  else if domain ∈ rootDomains then (domain, true)
  else matchingRootLoop rootDomains (Split domain) 1 ((Split domain).length - 1)

/-- In the words of the specification: `s` is a label-aligned suffix of `n` when
`s = n` or `s` is the `.`-join of the labels of `n` from some position `i ≥ 1`. -/
def IsLabelSuffix (s n : Str) : Prop :=
  s = n ∨ ∃ i, 1 ≤ i ∧ i < (Split n).length ∧ s = Join ((Split n).drop i)

/-! ## `strings.TrimSpace`, `strings.ToLower`, `strings.HasPrefix` -/

/-- Go `unicode.IsSpace`: the Latin-1 spaces `\t \n \v \f \r`, space, U+0085,
U+00A0, and the other code points with the `White_Space` property. -/
def IsSpace (c : Char) : Bool :=
  (9 ≤ c.toNat && c.toNat ≤ 13) || c.toNat = 0x20 || c.toNat = 0x85 || c.toNat = 0xA0 ||
  c.toNat = 0x1680 || (0x2000 ≤ c.toNat && c.toNat ≤ 0x200A) || c.toNat = 0x2028 ||
  c.toNat = 0x2029 || c.toNat = 0x202F || c.toNat = 0x205F || c.toNat = 0x3000

/-- Go `strings.TrimSpace`: drops the leading and the trailing white space. -/
def TrimSpace (s : Str) : Str :=
  ((s.dropWhile IsSpace).reverse.dropWhile IsSpace).reverse

/-- Go `unicode.ToLower` on one code point. On ASCII it maps `A`-`Z` to `a`-`z`
and fixes the rest; beyond ASCII it is the case table of the Go runtime, which
enters as the parameter `lo`. -/
def toLowerRune (lo : Char → Char) (c : Char) : Char :=
  if c.toNat < 128 then c.toLower else lo c

/-- Go `strings.ToLower`: `unicode.ToLower` applied to every code point. -/
def ToLower (lo : Char → Char) (s : Str) : Str :=
  s.map (toLowerRune lo)

/-- Go `strings.HasPrefix(s, pre)`. -/
def HasPrefix (s pre : Str) : Bool :=
  pre.isPrefixOf s

/-- Go `strings.Contains(s, sub)`. -/
def Contains : Str → Str → Bool
  | [], sub => sub.isEmpty
  | c :: cs, sub => HasPrefix (c :: cs) sub || Contains cs sub

/-- Go `strings.ReplaceAll(s, ":", "_")`. -/
def ReplaceColon (s : Str) : Str :=
  s.map (fun c => if c = ':' then '_' else c)

/-! ## The runner state and the emission pipeline -/

/-- The `Options` of options.go. -/
structure Options where
  Verbose : Bool
  RootList : Str
  Debug : Bool
  JsonOutput : Bool
  WatchFile : Bool
  OutputDir : Str
  DiscordWebhook : Str
  deriving DecidableEq, Repr

/-- The dynamic type of the `cert interface{}` argument of `processDomain`:
a `*x509.Certificate` (identified by a number) or anything else. -/
inductive Cert where
  | x509 (id : Nat)
  | other (id : Nat)
  deriving DecidableEq, Repr

/-- One write to standard output. -/
inductive StdoutLine where
  /-- the effect of `utils.JsonOutput(c)` -/
  | json (c : Nat)
  /-- the effect of `fmt.Println(domain)` -/
  | text (s : Str)
  deriving DecidableEq, Repr

/-- The `Runner` fields the emission pipeline reads and writes, together with
the effects it has on the outside: standard output, the files of the output
directory (file name and content) and the notifications handed to the notifier. -/
structure Runner where
  options : Options
  rootDomains : List Str
  seenDomain : List Str
  outputPath : Str
  notifier : Bool
  stdout : List StdoutLine
  files : List (Str × Str)
  notified : List Str
  deriving DecidableEq, Repr

/-- `Runner.hasRootFilter` (runner.go 520-524). -/
def hasRootFilter (r : Runner) : Bool :=
  decide (r.rootDomains.length > 0)

/-- `Runner.markSeen` (runner.go 496-511), run without interleaving: the
re-check under the write lock sees what the first check saw. -/
def markSeen (r : Runner) (domain : Str) : Runner × Bool :=
  if domain ∈ r.seenDomain then (r, false)
  else if domain ∈ r.seenDomain then (r, false)
  else ({ r with seenDomain := domain :: r.seenDomain }, true)

/-- Modelled from the spec: `utils.JsonOutput` (package `pkg/utils` is not
among the sources). With `-j` and a full X.509 certificate the pipeline emits
one JSON object per line; the line is recorded as `StdoutLine.json`. -/
def JsonOutput (out : List StdoutLine) (c : Nat) : List StdoutLine :=
  out ++ [StdoutLine.json c]

/-- `Runner.emitStdout` (runner.go 375-394). -/
def emitStdout (r : Runner) (domain : Str) (cert : Cert) : Runner :=
  if r.options.JsonOutput then
    match cert with
    | Cert.x509 c => { r with stdout := JsonOutput r.stdout c }
    | _ => { r with stdout := r.stdout ++ [StdoutLine.text domain] }
  else if r.options.OutputDir = [] || !hasRootFilter r then
    { r with stdout := r.stdout ++ [StdoutLine.text domain] }
  else if hasRootFilter r then
    { r with stdout := r.stdout ++ [StdoutLine.text domain] }
  else r

/-- Appending `line` to the file `name` (`O_APPEND|O_CREATE`). -/
def appendFile : List (Str × Str) → Str → Str → List (Str × Str)
  | [], name, line => [(name, line)]
  | (n, c) :: fs, name, line =>
    if n = name then (n, c ++ line) :: fs else (n, c) :: appendFile fs name line

/-- `Runner.persistDomain` (runner.go 396-426); the file system calls succeed. -/
def persistDomain (r : Runner) (domain matchedRoot : Str) : Runner × Bool :=
  if r.outputPath = [] then (r, false)
  else if matchedRoot = [] then (r, false)
  else
    let fileName := ReplaceColon matchedRoot ++ ".txt".toList
    let line := "Hostname: ".toList ++ domain ++ "\n".toList
    ({ r with files := appendFile r.files fileName line }, true)

/-- `Runner.notifyDomain` (runner.go 513-518): the domain is handed to the notifier. -/
def notifyDomain (r : Runner) (domain : Str) : Runner :=
  if !r.notifier then r else { r with notified := r.notified ++ [domain] }

/-- `Runner.processDomain` (runner.go 343-373). -/
def processDomain (lo : Char → Char) (r : Runner) (domain : Str) (cert : Cert) : Runner :=
  let display := TrimSpace domain
  if display = [] then r
  else
    let normalized := ToLower lo display
    let hasRoots := hasRootFilter r
    let m := if hasRoots then matchingRoot r.rootDomains normalized else ([], true)
    if hasRoots && !m.2 then r
    else
      let s := markSeen r normalized
      if !s.2 then r
      else
        let r1 := emitStdout s.1 display cert
        let r2 := if r1.outputPath ≠ [] then (persistDomain r1 display m.1).1 else r1
        notifyDomain r2 display

/-- The calls `processDomain(d, cert)` for the pairs of `ds`, one after another. -/
def processAll (lo : Char → Char) (r : Runner) (ds : List (Str × Cert)) : Runner :=
  ds.foldl (fun acc dc => processDomain lo acc dc.1 dc.2) r

/-- The trimmed, lowercased names of the calls of `processAll` that wrote to
standard output, in call order. -/
def writers (lo : Char → Char) : Runner → List (Str × Cert) → List Str
  | _, [] => []
  | r, dc :: ds =>
    if (processDomain lo r dc.1 dc.2).stdout ≠ r.stdout then
      ToLower lo (TrimSpace dc.1) :: writers lo (processDomain lo r dc.1 dc.2) ds
    else writers lo (processDomain lo r dc.1 dc.2) ds

/-- A runner before any emission, with the given options, roots and output path. -/
def freshRunner (o : Options) (roots : List Str) (outputPath : Str) : Runner :=
  { options := o, rootDomains := roots, seenDomain := [], outputPath := outputPath,
    notifier := false, stdout := [], files := [], notified := [] }

/-- Options with every flag off. -/
def plainOptions : Options :=
  { Verbose := false, RootList := [], Debug := false, JsonOutput := false,
    WatchFile := false, OutputDir := [], DiscordWebhook := [] }

/-! ## Hydration: `bufio.Scanner` and `Runner.loadResultsFromFile` -/

/-- Go `len(s)`: the number of bytes of the UTF-8 encoding. -/
def utf8Len (s : Str) : Nat :=
  (s.map Char.utf8Size).sum

/-- Go `bufio.MaxScanTokenSize`, the buffer limit of a default `bufio.Scanner`. -/
def MaxScanTokenSize : Nat := 64 * 1024

/-- The pieces `bufio.ScanLines` cuts a file into: the text between line feeds,
a final piece without line feed being kept unless it is empty. -/
def rawLines : Str → List Str
  | [] => []
  | c :: cs =>
    if c = '\n' then [] :: rawLines cs
    else
      match rawLines cs with
      | [] => [[c]]
      | l :: ls => (c :: l) :: ls

/-- The `dropCR` of `bufio.ScanLines`: one trailing carriage return is dropped. -/
def dropCR (s : Str) : Str :=
  if s.getLast? = some '\r' then s.dropLast else s

/-- The successive results of `scanner.Scan()` / `scanner.Text()`: every piece with
`dropCR` applied, up to the first piece that does not fit the scanner buffer
(`bufio.ErrTooLong`), where scanning stops with an error. -/
def scanTokens : List Str → List Str × Bool
  | [] => ([], false)
  | p :: ps =>
    if MaxScanTokenSize ≤ utf8Len p then ([], true)
    else (dropCR p :: (scanTokens ps).1, (scanTokens ps).2)

/-- The lines a `bufio.Scanner` yields for a file, and whether `scanner.Err()` is set. -/
def scanLines (content : Str) : List Str × Bool :=
  scanTokens (rawLines content)

/-- The assignment `r.seenDomain[norm] = true`. -/
def insertSeen (seen : List Str) (norm : Str) : List Str :=
  if norm ∈ seen then seen else norm :: seen

/-- The body of the `for scanner.Scan()` loop of `loadResultsFromFile` (runner.go
471-489) on the seen set and the counter. Where the branch `line[len("Hostname:"):]`
is taken the first nine code points of `line` are ASCII, so the byte slice drops
nine code points. -/
def hydrateLine (lo : Char → Char) (st : List Str × Nat) (text : Str) : List Str × Nat :=
  let line := TrimSpace text
  if line = [] || HasPrefix line "#".toList then st
  else
    let lower := ToLower lo line
    let line2 := if HasPrefix lower "hostname:".toList then TrimSpace (line.drop 9) else line
    if line2 = [] then st
    else (insertSeen st.1 (ToLower lo line2), st.2 + 1)

/-- `Runner.loadResultsFromFile` (runner.go 459-494) on the content of an existing
file: the runner with the names added, the count and whether an error is returned. -/
def loadResultsFromFile (lo : Char → Char) (r : Runner) (content : Str) :
    Runner × Nat × Bool :=
  let st := (scanLines content).1.foldl (hydrateLine lo) (r.seenDomain, 0)
  ({ r with seenDomain := st.1 }, st.2, (scanLines content).2)

/-- `time.Millisecond` and `time.Second`, in nanoseconds. -/
def Millisecond : Nat := 1000000

def Second : Nat := 1000 * Millisecond

/-- The entries of the map literal `defaultRateLimit` (runner.go 27-34), in the
order of the source text. -/
def defaultRateLimit : List (Str × Nat) :=
  [("Google".toList, Millisecond), ("Sectigo".toList, 4 * Second),
   ("Let's Encrypt".toList, Second), ("DigiCert".toList, Second),
   ("TrustAsia".toList, Second), ("Cloudflare".toList, Second)]

/-- The loop `for key, val := range r.rateLimitMap` of `scanLog` (runner.go
187-193). `iter` is the order in which `range` yields the entries of the map;
Go leaves that order unspecified, so it is an input. -/
def tickerDuration : List (Str × Nat) → Str → Nat
  | [], _ => Second
  | kv :: rest, name => if Contains name kv.1 then kv.2 else tickerDuration rest name

/-- A `types.EntryTask`: the leaves of one response and the index of the first. -/
structure EntryTask where
  Entries : List Nat
  Index : Int
  deriving DecidableEq, Repr

/-- One call of the log client, with its answer (`none` is an error). -/
inductive Call where
  | sth (resp : Option Nat)
  | raw (start end_ : Int) (resp : Option (List Nat))
  deriving DecidableEq, Repr

/-- The log server: its answer to `GetSTH` and to `GetRawEntries(start, end)`,
each as a function of the number of calls made before. -/
structure LogServer where
  getSTH : Nat → Option Nat
  getRawEntries : Nat → Int → Int → Option (List Nat)

/-- The context and the timers: whether the context is done during the wait
after failed attempt `k`, and how many ticks fire before the context is done. -/
structure Schedule where
  cancelInRetry : Nat → Bool
  ticks : Nat

/-- The local variables of `scanLog`, the client calls made so far and the
tasks sent on `entryTasksChan` so far. -/
structure Poller where
  tickerDuration : Nat
  isGoogle : Bool
  start : Int
  end_ : Int
  calls : List Call
  queue : List EntryTask
  deriving DecidableEq, Repr

/-- A client call is added to the record of calls. -/
def record (p : Poller) (c : Call) : Poller :=
  { p with calls := p.calls ++ [c] }

/-- `Runner.fetchAndUpdateSTH` (runner.go 278-285): the poller and whether an
error is returned. -/
def fetchAndUpdateSTH (srv : LogServer) (p : Poller) : Poller × Bool :=
  match srv.getSTH p.calls.length with
  | none => (record p (Call.sth none), true)
  | some size => ({ record p (Call.sth (some size)) with end_ := (size : Int) }, false)

/-- The loop `for retries := 0; retries < 3; retries++` of `scanLog` (runner.go
202-215), entered with `retries` and `fuel = 3 - retries`: the poller and
whether `scanLog` has returned. -/
def initialSTH (srv : LogServer) (sch : Schedule) : Nat → Nat → Poller → Poller × Bool
  | _, 0, p => (p, false)
  | retries, fuel + 1, p =>
    if (fetchAndUpdateSTH srv p).2 then
      if sch.cancelInRetry retries then ((fetchAndUpdateSTH srv p).1, true)
      else initialSTH srv sch (retries + 1) fuel (fetchAndUpdateSTH srv p).1
    else ((fetchAndUpdateSTH srv p).1, false)

/-- The statements `r.entryTasksChan <- types.EntryTask{Entries: entries, Index: start}`
and `start += int64(len(entries.Entries))` (runner.go 256-257 and 271-272), after
the call `GetRawEntries(start, upto)` that returned `entries`. The send is taken
to complete: the channel has room or a worker receives. -/
def enqueue (p : Poller) (upto : Int) (entries : List Nat) : Poller :=
  { p with calls := p.calls ++ [Call.raw p.start upto (some entries)],
           queue := p.queue ++ [{ Entries := entries, Index := p.start }],
           start := p.start + (entries.length : Int) }

/-- The `batchEnd` of the Google branch (runner.go 239-242). -/
def batchEnd (p : Poller) : Int :=
  if p.start + 32 > p.end_ then p.end_ else p.start + 32

/-- The loop `for start < end` of the Google branch (runner.go 238-258), with a
bound on the number of iterations; `none` when the bound is used up. -/
def googleLoop (srv : LogServer) : Nat → Poller → Option Poller
  | fuel, p =>
    if p.start < p.end_ then
      match fuel with
      | 0 => none
      | fuel + 1 =>
        match srv.getRawEntries p.calls.length p.start (batchEnd p) with
        | none => some (record p (Call.raw p.start (batchEnd p) none))
        | some entries =>
          if entries.length = 0 then
            some (record p (Call.raw p.start (batchEnd p) (some entries)))
          else googleLoop srv fuel (enqueue p (batchEnd p) entries)
    else some p

/-- The body of `case <-ticker.C` (runner.go 223-273); the Google loop gets the
bound `end - start`. -/
def tick (srv : LogServer) (p : Poller) : Option Poller :=
  if p.start ≥ p.end_ then some (fetchAndUpdateSTH srv p).1
  else if p.isGoogle then googleLoop srv (p.end_ - p.start).toNat p
  else
    match srv.getRawEntries p.calls.length p.start p.end_ with
    | none => some (record p (Call.raw p.start p.end_ none))
    | some entries =>
      if entries.length > 0 then some (enqueue p p.end_ entries)
      else some (record p (Call.raw p.start p.end_ (some entries)))

/-- The steady-state loop `for { select ... }` (runner.go 219-275) for `n` ticks,
after which the context is done. -/
def steady (srv : LogServer) : Nat → Poller → Option Poller
  | 0, p => some p
  | n + 1, p => (tick srv p).bind (steady srv n)

/-- `Runner.scanLog` (runner.go 184-276) for the log named `name`, with `iter`
the iteration order of the rate-limit map: the state in which it returns. -/
def scanLog (srv : LogServer) (sch : Schedule) (iter : List (Str × Nat)) (name : Str) :
    Option Poller :=
  let p0 : Poller :=
    { tickerDuration := tickerDuration iter name, isGoogle := Contains name "Google".toList,
      start := 0, end_ := 0, calls := [], queue := [] }
  let i := initialSTH srv sch 0 3 p0
  if i.2 then some i.1
  else steady srv sch.ticks { i.1 with start := i.1.end_ - 20 }

/-! ## The supervisor: `Runner.Run`, `Runner.startScan`, `Runner.entryWorker` -/

/-- A task on `entryTasksChan`, labelled with the epoch in which it was sent. -/
structure Pending where
  task : EntryTask
  sentIn : Nat
  deriving DecidableEq, Repr

/-- The supervisor state: the number of restarts handled so far (the epoch),
the buffer of `entryTasksChan` and, for every task handed to `processEntries`,
the epoch of the worker that received it. -/
structure Supervisor where
  epoch : Nat
  capacity : Nat
  chan : List Pending
  processed : List (Pending × Nat)
  deriving DecidableEq, Repr

/-- The steps that touch the task channel or the epoch. -/
inductive Action where
  /-- a poller executes `r.entryTasksChan <- task` (runner.go 256, 271) -/
  | send (t : EntryTask)
  /-- a worker takes `case task, ok := <-r.entryTasksChan` (runner.go 173-177) -/
  | recv
  /-- `Run` takes `case <-restarts` (runner.go 139-150): cancel, wait for the
  goroutines of the epoch, new context, `startScan` -/
  | restart
  deriving DecidableEq, Repr

/-- One step of the supervisor, its pollers and its workers. A send on a full
channel and a receive on an empty one block: the state stays as it is. -/
def step (s : Supervisor) : Action → Supervisor
  | Action.send t =>
    if s.chan.length < s.capacity then
      { s with chan := s.chan ++ [{ task := t, sentIn := s.epoch }] }
    else s
  | Action.recv =>
    match s.chan with
    | [] => s
    | t :: ts => { s with chan := ts, processed := s.processed ++ [(t, s.epoch)] }
  | Action.restart => { s with epoch := s.epoch + 1 }

/-- A run of the supervisor along a list of steps. -/
def run (s : Supervisor) (as : List Action) : Supervisor :=
  as.foldl step s

/-- The supervisor right after `NewRunner`: the channel was just made (runner.go 107). -/
def initialSupervisor (capacity : Nat) : Supervisor :=
  { epoch := 0, capacity := capacity, chan := [], processed := [] }


/-! ## Reading a run of the poller -/

/-- The tasks a list of client calls must have put on the channel: one task for
every `GetRawEntries` response that holds at least one entry, with the start
index of the request as `Index`. -/
def tasksOf : List Call → List EntryTask
  | [] => []
  | Call.raw s _ (some es) :: cs =>
    if es.length = 0 then tasksOf cs else { Entries := es, Index := s } :: tasksOf cs
  | _ :: cs => tasksOf cs

/-- The tasks `ts` take the cursor from `s` to `s'`: every task holds at least
one entry, its `Index` is the cursor before it and the cursor after it is its
`Index` plus the number of its entries. -/
def Chained : Int → List EntryTask → Int → Prop
  | s, [], s' => s' = s
  | s, t :: ts, s' =>
    t.Index = s ∧ 1 ≤ t.Entries.length ∧ Chained (s + (t.Entries.length : Int)) ts s'

/-- A log server that answers every `GetSTH` with tree size `size` and every
`GetRawEntries(start, end)` with `end - start` entries. -/
def fullServer (size : Nat) : LogServer :=
  { getSTH := fun _ => some size,
    getRawEntries := fun _ s e => some (List.replicate (e - s).toNat 0) }

/-- A log server whose `GetSTH` and `GetRawEntries` always fail. -/
def deadServer : LogServer :=
  { getSTH := fun _ => none, getRawEntries := fun _ _ _ => none }

/-- A log server that reports tree size `size` and fails every `GetRawEntries`. -/
def sizeOnlyServer (size : Nat) : LogServer :=
  { getSTH := fun _ => some size, getRawEntries := fun _ _ _ => none }

/-- A schedule without cancellation during the initial retries and with `n` ticks. -/
def ticksOnly (n : Nat) : Schedule :=
  { cancelInRetry := fun _ => false, ticks := n }

theorem Join_cons_cons (p q : Str) (ps : List Str) :
    Join (p :: q :: ps) = p ++ '.' :: Join (q :: ps) := rfl

theorem Split_nil : Split [] = [[]] := rfl

theorem Split_cons_dot (cs : Str) : Split ('.' :: cs) = [] :: Split cs := by
  simp [Split, splitAux]

theorem Split_cons_other (c : Char) (cs : Str) (h : c ≠ '.') :
    Split (c :: cs) = (c :: (splitAux cs).1) :: (splitAux cs).2 := by
  simp [Split, splitAux, h]

theorem Join_Split (s : Str) : Join (Split s) = s := by
  induction s with
  | nil => rfl
  | cons c cs ih =>
    by_cases h : c = '.'
    · subst h
      rw [Split_cons_dot]
      show Join ([] :: (splitAux cs).1 :: (splitAux cs).2) = _
      rw [Join_cons_cons]
      simpa [Split] using ih
    · rw [Split_cons_other c cs h]
      cases hq : (splitAux cs).2 with
      | nil =>
        have : Join [(splitAux cs).1] = cs := by simpa [Split, hq] using ih
        simpa [Join] using this
      | cons q qs =>
        have : Join ((splitAux cs).1 :: q :: qs) = cs := by simpa [Split, hq] using ih
        rw [Join_cons_cons] at this ⊢
        simp [this]

theorem length_Join_drop_succ (parts : List Str) (i : Nat) (h : i + 1 < parts.length) :
    (Join (parts.drop (i + 1))).length < (Join (parts.drop i)).length := by
  induction parts generalizing i with
  | nil => simp at h
  | cons p ps ih =>
    cases i with
    | zero =>
      cases ps with
      | nil => simp at h
      | cons q qs => simp [Join_cons_cons]; omega
    | succ j =>
      simp only [List.drop_succ_cons]
      exact ih j (by simpa using h)

theorem length_Join_drop_le (parts : List Str) (i j : Nat) (hij : i ≤ j) (h : j < parts.length) :
    (Join (parts.drop j)).length ≤ (Join (parts.drop i)).length := by
  induction j with
  | zero =>
    have : i = 0 := by omega
    subst this; exact le_refl _
  | succ k ih =>
    rcases Nat.eq_or_lt_of_le hij with h1 | h1
    · subst h1; exact le_refl _
    · have := ih (by omega) (by omega)
      have h2 := length_Join_drop_succ parts k h
      omega

/-- What the loop of `matchingRoot` returns: the first hit from index `i` on. -/
theorem matchingRootLoop_spec (R : List Str) (parts : List Str) (fuel i : Nat)
    (hf : i + fuel = parts.length) :
    (∃ j, i ≤ j ∧ j < parts.length ∧ Join (parts.drop j) ∈ R ∧
        (∀ k, i ≤ k → k < j → Join (parts.drop k) ∉ R) ∧
        matchingRootLoop R parts i fuel = (Join (parts.drop j), true)) ∨
    ((∀ k, i ≤ k → k < parts.length → Join (parts.drop k) ∉ R) ∧
        matchingRootLoop R parts i fuel = ([], false)) := by
  induction fuel generalizing i with
  | zero =>
    right
    refine ⟨fun k hk hk2 => by omega, rfl⟩
  | succ f ih =>
    by_cases hm : Join (parts.drop i) ∈ R
    · left
      refine ⟨i, le_refl _, by omega, hm, fun k h1 h2 => by omega, ?_⟩
      simp [matchingRootLoop, hm]
    · rcases ih (i + 1) (by omega) with ⟨j, h1, h2, h3, h4, h5⟩ | ⟨h1, h2⟩
      · left
        refine ⟨j, by omega, h2, h3, ?_, ?_⟩
        · intro k hk1 hk2
          rcases Nat.eq_or_lt_of_le hk1 with e | e
          · subst e; exact hm
          · exact h4 k e hk2
        · simp [matchingRootLoop, hm, h5]
      · right
        refine ⟨?_, ?_⟩
        · intro k hk1 hk2
          rcases Nat.eq_or_lt_of_le hk1 with e | e
          · subst e; exact hm
          · exact h1 k e hk2
        · simp [matchingRootLoop, hm, h2]


theorem Split_length_pos (n : Str) : 0 < (Split n).length := by simp [Split]

theorem Split_eq_cons (s : Str) : Split s = (splitAux s).1 :: (splitAux s).2 := rfl

/-- Every label-aligned suffix cut at a position `i ≥ 1` follows a dot of the name. -/
theorem exists_dot_of_drop (n : Str) :
    ∀ i, 1 ≤ i → i < (Split n).length → ∃ p, n = p ++ '.' :: Join ((Split n).drop i) := by
  induction n with
  | nil => intro i h1 h2; simp [Split_nil] at h2; omega
  | cons c cs ih =>
    intro i h1 h2
    obtain ⟨j, rfl⟩ : ∃ j, i = j + 1 := ⟨i - 1, by omega⟩
    by_cases h : c = '.'
    · subst h
      rw [Split_cons_dot] at h2 ⊢
      simp only [List.drop_succ_cons]
      cases j with
      | zero => exact ⟨[], by simp [Join_Split]⟩
      | succ k =>
        obtain ⟨p, hp⟩ := ih (k + 1) (by omega) (by simpa using h2)
        exact ⟨'.' :: p, by rw [List.cons_append, ← hp]⟩
    · rw [Split_cons_other c cs h] at h2 ⊢
      simp only [List.drop_succ_cons]
      have hd : List.drop (j + 1) (Split cs) = List.drop j (splitAux cs).2 := by
        simp [Split_eq_cons]
      have hl : (Split cs).length = (splitAux cs).2.length + 1 := by simp [Split_eq_cons]
      obtain ⟨p, hp⟩ := ih (j + 1) (by omega) (by simp at h2; omega)
      refine ⟨c :: p, ?_⟩
      rw [List.cons_append, ← hd, ← hp]

/-- What follows a dot of the name is a label-aligned suffix cut at a position `i ≥ 1`. -/
theorem exists_drop_of_dot (p s : Str) :
    ∃ i, 1 ≤ i ∧ i < (Split (p ++ '.' :: s)).length ∧
      s = Join ((Split (p ++ '.' :: s)).drop i) := by
  induction p with
  | nil =>
    refine ⟨1, le_refl _, ?_, ?_⟩
    · simp [Split_cons_dot, Split_length_pos]
    · simp [Split_cons_dot, Join_Split]
  | cons c cs ih =>
    obtain ⟨i, h1, h2, h3⟩ := ih
    by_cases h : c = '.'
    · subst h
      refine ⟨i + 1, by omega, ?_, ?_⟩
      · simp only [List.cons_append, Split_cons_dot, List.length_cons]; omega
      · simp only [List.cons_append, Split_cons_dot, List.drop_succ_cons]; exact h3
    · obtain ⟨j, rfl⟩ : ∃ j, i = j + 1 := ⟨i - 1, by omega⟩
      refine ⟨j + 1, by omega, ?_, ?_⟩
      · rw [List.cons_append, Split_cons_other c _ h]
        simpa [Split_eq_cons] using h2
      · rw [List.cons_append, Split_cons_other c _ h]
        simpa [Split_eq_cons] using h3

/-- The label-aligned suffixes of `n` are `n` itself and what follows a dot of `n`. -/
theorem IsLabelSuffix_iff (s n : Str) :
    IsLabelSuffix s n ↔ s = n ∨ ∃ p, n = p ++ '.' :: s := by
  constructor
  · rintro (h | ⟨i, h1, h2, rfl⟩)
    · exact Or.inl h
    · exact Or.inr (exists_dot_of_drop n i h1 h2)
  · rintro (h | ⟨p, rfl⟩)
    · exact Or.inl h
    · exact Or.inr (exists_drop_of_dot p s)

theorem IsLabelSuffix_length_le (t n : Str) (h : IsLabelSuffix t n) : t.length ≤ n.length := by
  rcases h with rfl | ⟨i, h1, h2, rfl⟩
  · exact le_refl _
  · have := length_Join_drop_le (Split n) 0 i (by omega) h2
    simpa [Join_Split] using this

/-- The two outcomes of `matchingRoot` on a non-empty root set. -/
theorem matchingRoot_cases (R : List Str) (n : Str) (hR : R ≠ []) :
    (∃ s, matchingRoot R n = (s, true) ∧ s ∈ R ∧ IsLabelSuffix s n ∧
        ∀ t, t ∈ R → IsLabelSuffix t n → t.length ≤ s.length) ∨
    (matchingRoot R n = ([], false) ∧ ¬ ∃ t, t ∈ R ∧ IsLabelSuffix t n) := by
  have hlen : ¬ R.length = 0 := by
    cases R with
    | nil => exact absurd rfl hR
    | cons a l => simp
  have hpos := Split_length_pos n
  by_cases hn : n ∈ R
  · left
    refine ⟨n, by simp [matchingRoot, hlen, hn], hn, Or.inl rfl, ?_⟩
    intro t _ ht
    exact IsLabelSuffix_length_le t n ht
  · rcases matchingRootLoop_spec R (Split n) ((Split n).length - 1) 1 (by omega) with
      ⟨j, h1, h2, h3, h4, h5⟩ | ⟨h1, h2⟩
    · left
      refine ⟨Join ((Split n).drop j), by simp [matchingRoot, hlen, hn, h5], h3,
        Or.inr ⟨j, h1, h2, rfl⟩, ?_⟩
      intro t htR ht
      rcases ht with rfl | ⟨i, hi1, hi2, rfl⟩
      · exact absurd htR hn
      · by_cases hij : i < j
        · exact absurd htR (h4 i hi1 hij)
        · exact length_Join_drop_le (Split n) j i (by omega) hi2
    · right
      refine ⟨by simp [matchingRoot, hlen, hn, h2], ?_⟩
      rintro ⟨t, htR, rfl | ⟨i, hi1, hi2, rfl⟩⟩
      · exact hn htR
      · exact h1 i hi1 hi2 htR

/-- C1. On a non-empty root set `matchingRoot` returns the longest label-aligned
suffix of the name that is a root, with `true`, when the name has such a suffix,
and `("", false)` when it has none; with the root `example.com` the name
`foo.example.com` yields `(example.com, true)` and `fooexample.com` yields
`("", false)`. -/
theorem matchingRoot_longest_label_suffix (R : List Str) (n : Str) (hR : R ≠ []) :
    ((∃ t, t ∈ R ∧ IsLabelSuffix t n) →
      ∃ s, matchingRoot R n = (s, true) ∧ s ∈ R ∧ IsLabelSuffix s n ∧
        ∀ t, t ∈ R → IsLabelSuffix t n → t.length ≤ s.length) ∧
    ((¬ ∃ t, t ∈ R ∧ IsLabelSuffix t n) → matchingRoot R n = ([], false)) ∧
    matchingRoot ["example.com".toList] "foo.example.com".toList
      = ("example.com".toList, true) ∧
    matchingRoot ["example.com".toList] "fooexample.com".toList = ([], false) := by
  refine ⟨?_, ?_, by decide, by decide⟩
  · intro hex
    rcases matchingRoot_cases R n hR with h | ⟨_, h⟩
    · exact h
    · exact absurd hex h
  · intro hno
    rcases matchingRoot_cases R n hR with ⟨s, _, h2, h3, _⟩ | ⟨h, _⟩
    · exact absurd ⟨s, h2, h3⟩ hno
    · exact h

/-- The root set `{example.com}` is not empty and `foo.example.com` has the
label-aligned suffix `example.com` in it, which `matchingRoot` returns. -/
theorem matchingRoot_longest_label_suffix_witness :
    ["example.com".toList] ≠ [] ∧
    (∃ t, t ∈ ["example.com".toList] ∧ IsLabelSuffix t "foo.example.com".toList) ∧
    ∃ s, matchingRoot ["example.com".toList] "foo.example.com".toList = (s, true) ∧
      s ∈ ["example.com".toList] ∧ IsLabelSuffix s "foo.example.com".toList ∧
      ∀ t, t ∈ ["example.com".toList] → IsLabelSuffix t "foo.example.com".toList →
        t.length ≤ s.length :=
  have hex : ∃ t, t ∈ ["example.com".toList] ∧ IsLabelSuffix t "foo.example.com".toList :=
    ⟨"example.com".toList, by simp, Or.inr ⟨1, by decide, by decide, by decide⟩⟩
  ⟨by simp, hex,
    (matchingRoot_longest_label_suffix ["example.com".toList] "foo.example.com".toList
      (by simp)).1 hex⟩

/-! ### The emission pipeline -/

theorem emitStdout_fields (r : Runner) (d : Str) (c : Cert) :
    (emitStdout r d c).seenDomain = r.seenDomain ∧
    (emitStdout r d c).rootDomains = r.rootDomains ∧
    (emitStdout r d c).outputPath = r.outputPath ∧
    (emitStdout r d c).files = r.files ∧
    (emitStdout r d c).notified = r.notified ∧
    ∃ l, (emitStdout r d c).stdout = r.stdout ++ [l] := by
  unfold emitStdout
  by_cases hj : r.options.JsonOutput = true
  · cases c <;> simp [hj, JsonOutput]
  · by_cases ho : r.options.OutputDir = []
    · simp [hj, ho]
    · by_cases hr : hasRootFilter r = true <;> simp [hj, ho, hr]

theorem persistDomain_fields (r : Runner) (d m : Str) :
    (persistDomain r d m).1.seenDomain = r.seenDomain ∧
    (persistDomain r d m).1.rootDomains = r.rootDomains ∧
    (persistDomain r d m).1.stdout = r.stdout := by
  unfold persistDomain
  by_cases h1 : r.outputPath = []
  · simp [h1]
  · by_cases h2 : m = [] <;> simp [h1, h2]

theorem notifyDomain_fields (r : Runner) (d : Str) :
    (notifyDomain r d).seenDomain = r.seenDomain ∧
    (notifyDomain r d).rootDomains = r.rootDomains ∧
    (notifyDomain r d).stdout = r.stdout := by
  unfold notifyDomain
  cases r.notifier <;> simp

theorem markSeen_eq (r : Runner) (n : Str) :
    markSeen r n =
      if n ∈ r.seenDomain then (r, false)
      else ({ r with seenDomain := n :: r.seenDomain }, true) := by
  unfold markSeen
  by_cases h : n ∈ r.seenDomain <;> simp [h]

/-- A call of `processDomain` changes nothing, or it passes the root filter, adds
its normalized name, which was not seen yet, and writes one line. -/
theorem processDomain_cases (lo : Char → Char) (r : Runner) (d : Str) (c : Cert) :
    processDomain lo r d c = r ∨
    (ToLower lo (TrimSpace d) ∉ r.seenDomain ∧
      (r.rootDomains ≠ [] → (matchingRoot r.rootDomains (ToLower lo (TrimSpace d))).2 = true) ∧
      (processDomain lo r d c).seenDomain = ToLower lo (TrimSpace d) :: r.seenDomain ∧
      (processDomain lo r d c).rootDomains = r.rootDomains ∧
      ∃ l, (processDomain lo r d c).stdout = r.stdout ++ [l]) := by
  unfold processDomain
  by_cases h1 : TrimSpace d = []
  · left; simp [h1]
  · simp only [h1, if_false]
    by_cases h2 : (hasRootFilter r &&
        !(if hasRootFilter r = true then matchingRoot r.rootDomains (ToLower lo (TrimSpace d))
          else ([], true)).2) = true
    · left; simp only [h2, if_true]
    · simp only [h2, if_false]
      by_cases h3 : ToLower lo (TrimSpace d) ∈ r.seenDomain
      · left; simp [markSeen_eq, h3]
      · right
        refine ⟨h3, ?_, ?_⟩
        · intro hR
          have hf : hasRootFilter r = true := by
            unfold hasRootFilter
            cases hh : r.rootDomains with
            | nil => exact absurd hh hR
            | cons a l => simp
          simpa [hf] using h2
        · simp only [markSeen_eq, h3, if_false, Bool.not_true]
          generalize hm : (if hasRootFilter r = true then
            matchingRoot r.rootDomains (ToLower lo (TrimSpace d)) else ([], true)) = m
          set r0 : Runner := { r with seenDomain := ToLower lo (TrimSpace d) :: r.seenDomain }
          obtain ⟨e1, e2, _, _, _, l, e3⟩ := emitStdout_fields r0 (TrimSpace d) c
          obtain ⟨p1, p2, p3⟩ := persistDomain_fields (emitStdout r0 (TrimSpace d) c)
            (TrimSpace d) m.1
          simp only [Bool.false_eq_true, if_false]
          split
          · obtain ⟨n1, n2, n3⟩ := notifyDomain_fields
              (persistDomain (emitStdout r0 (TrimSpace d) c) (TrimSpace d) m.1).1 (TrimSpace d)
            refine ⟨by rw [n1, p1, e1], by rw [n2, p2, e2], l, by rw [n3, p3, e3]⟩
          · obtain ⟨n1, n2, n3⟩ := notifyDomain_fields (emitStdout r0 (TrimSpace d) c)
              (TrimSpace d)
            refine ⟨by rw [n1, e1], by rw [n2, e2], l, by rw [n3, e3]⟩

theorem processAll_cons (lo : Char → Char) (r : Runner) (dc : Str × Cert)
    (ds : List (Str × Cert)) :
    processAll lo r (dc :: ds) = processAll lo (processDomain lo r dc.1 dc.2) ds := rfl

theorem processDomain_seen_mono (lo : Char → Char) (r : Runner) (d : Str) (c : Cert)
    (x : Str) (hx : x ∈ r.seenDomain) : x ∈ (processDomain lo r d c).seenDomain := by
  rcases processDomain_cases lo r d c with h | ⟨_, _, h, _⟩
  · rw [h]; exact hx
  · rw [h]; exact List.mem_cons_of_mem _ hx

theorem processAll_seen_mono (lo : Char → Char) (ds : List (Str × Cert)) :
    ∀ (r : Runner) (x : Str), x ∈ r.seenDomain → x ∈ (processAll lo r ds).seenDomain := by
  induction ds with
  | nil => intro r x hx; exact hx
  | cons dc ds ih =>
    intro r x hx
    rw [processAll_cons]
    exact ih _ x (processDomain_seen_mono lo r dc.1 dc.2 x hx)

theorem writers_not_seen (lo : Char → Char) (ds : List (Str × Cert)) :
    ∀ (r : Runner) (x : Str), x ∈ writers lo r ds → x ∉ r.seenDomain := by
  induction ds with
  | nil => intro r x hx; simp [writers] at hx
  | cons dc ds ih =>
    intro r x hx hseen
    have hmono := processDomain_seen_mono lo r dc.1 dc.2 x hseen
    unfold writers at hx
    by_cases hw : (processDomain lo r dc.1 dc.2).stdout ≠ r.stdout
    · rw [if_pos hw] at hx
      rcases List.mem_cons.1 hx with rfl | hx
      · rcases processDomain_cases lo r dc.1 dc.2 with h | ⟨h, _⟩
        · exact hw (by rw [h])
        · exact h hseen
      · exact ih _ x hx hmono
    · rw [if_neg hw] at hx
      exact ih _ x hx hmono

theorem writers_nodup (lo : Char → Char) (ds : List (Str × Cert)) :
    ∀ r : Runner, (writers lo r ds).Nodup := by
  induction ds with
  | nil => intro r; simp [writers]
  | cons dc ds ih =>
    intro r
    unfold writers
    by_cases hw : (processDomain lo r dc.1 dc.2).stdout ≠ r.stdout
    · rw [if_pos hw]
      refine List.nodup_cons.2 ⟨?_, ih _⟩
      intro hmem
      rcases processDomain_cases lo r dc.1 dc.2 with h | ⟨_, _, h, _⟩
      · exact hw (by rw [h])
      · exact writers_not_seen lo ds _ _ hmem (by rw [h]; exact List.mem_cons_self _ _)
    · rw [if_neg hw]
      exact ih _

/-- C2. With a non-empty root set `processDomain` writes to standard output,
persists, notifies or marks a name as seen only if the trimmed, lowercased name
has a label-aligned suffix in the root set; a name without such a suffix leaves
the whole state as it was. With the root `example.com` the names `a.example.com`
and `example.com` are emitted and `evil-example.com` is dropped. -/
theorem processDomain_root_filter (lo : Char → Char) (r : Runner) (d : Str) (c : Cert)
    (hR : r.rootDomains ≠ []) :
    (((processDomain lo r d c).stdout ≠ r.stdout ∨ (processDomain lo r d c).files ≠ r.files ∨
        (processDomain lo r d c).notified ≠ r.notified ∨
        (processDomain lo r d c).seenDomain ≠ r.seenDomain) →
      ∃ s, s ∈ r.rootDomains ∧ IsLabelSuffix s (ToLower lo (TrimSpace d))) ∧
    ((¬ ∃ s, s ∈ r.rootDomains ∧ IsLabelSuffix s (ToLower lo (TrimSpace d))) →
      processDomain lo r d c = r) ∧
    (processAll id (freshRunner plainOptions ["example.com".toList] [])
        [("a.example.com".toList, Cert.x509 0), ("evil-example.com".toList, Cert.x509 1),
         ("example.com".toList, Cert.x509 2)]).stdout
      = [StdoutLine.text "a.example.com".toList, StdoutLine.text "example.com".toList] := by
  have key : (¬ ∃ s, s ∈ r.rootDomains ∧ IsLabelSuffix s (ToLower lo (TrimSpace d))) →
      processDomain lo r d c = r := by
    intro hno
    rcases processDomain_cases lo r d c with h | ⟨_, h, _⟩
    · exact h
    · exfalso
      rcases matchingRoot_cases r.rootDomains (ToLower lo (TrimSpace d)) hR with
        ⟨s, _, h2, h3, _⟩ | ⟨h1, _⟩
      · exact hno ⟨s, h2, h3⟩
      · have := h hR
        rw [h1] at this
        exact Bool.false_ne_true this
  refine ⟨?_, key, by decide⟩
  intro hch
  by_contra hno
  have := key hno
  rw [this] at hch
  simp at hch

/-- The root set `{example.com}` is not empty; `evil-example.com` has no
label-aligned suffix in it and `processDomain` leaves the runner as it was. -/
theorem processDomain_root_filter_witness :
    (freshRunner plainOptions ["example.com".toList] []).rootDomains ≠ [] ∧
    processDomain id (freshRunner plainOptions ["example.com".toList] [])
        "evil-example.com".toList (Cert.x509 1)
      = freshRunner plainOptions ["example.com".toList] [] :=
  ⟨by decide,
    (processDomain_root_filter id (freshRunner plainOptions ["example.com".toList] [])
      "evil-example.com".toList (Cert.x509 1) (by decide)).2.1 (by
        rcases matchingRoot_cases ["example.com".toList]
            (ToLower id (TrimSpace "evil-example.com".toList)) (by simp) with
          ⟨s, h1, _⟩ | ⟨_, h⟩
        · have h2 : matchingRoot ["example.com".toList]
              (ToLower id (TrimSpace "evil-example.com".toList)) = ([], false) := by decide
          rw [h2] at h1
          exact absurd (congrArg Prod.snd h1) Bool.false_ne_true
        · exact h)⟩

/-- C3. `markSeen(n)` returns `true` exactly when `n` was not in the seen set,
afterwards `n` is in the set, and neither `markSeen` nor a run of `processDomain`
calls removes a name from it; in every sequence of `processDomain` calls run one
after another at most one call per trimmed, lowercased name writes to standard
output. The names `a.com`, `b.com`, `a.com` emit `a.com` and `b.com` only, and
`A.com` followed by ` a.COM ` emits once. -/
theorem markSeen_dedup (lo : Char → Char) (r : Runner) (n : Str) (ds : List (Str × Cert)) :
    ((markSeen r n).2 = true ↔ n ∉ r.seenDomain) ∧
    n ∈ (markSeen r n).1.seenDomain ∧
    (∀ x, x ∈ r.seenDomain → x ∈ (markSeen r n).1.seenDomain) ∧
    (∀ x, x ∈ r.seenDomain → x ∈ (processAll lo r ds).seenDomain) ∧
    (writers lo r ds).Nodup ∧
    (processAll id (freshRunner plainOptions [] [])
        [("a.com".toList, Cert.x509 0), ("b.com".toList, Cert.x509 0),
         ("a.com".toList, Cert.x509 0)]).stdout
      = [StdoutLine.text "a.com".toList, StdoutLine.text "b.com".toList] ∧
    (processAll id (freshRunner plainOptions [] [])
        [("A.com".toList, Cert.x509 0), (" a.COM ".toList, Cert.x509 1)]).stdout
      = [StdoutLine.text "A.com".toList] := by
  refine ⟨?_, ?_, ?_, processAll_seen_mono lo ds r, writers_nodup lo ds r,
    by decide, by decide⟩
  · rw [markSeen_eq]
    by_cases h : n ∈ r.seenDomain <;> simp [h]
  · rw [markSeen_eq]
    by_cases h : n ∈ r.seenDomain <;> simp [h]
  · intro x hx
    rw [markSeen_eq]
    by_cases h : n ∈ r.seenDomain <;> simp [h, hx]

/-! ### Hydration -/

theorem toLower_of_not_upper (c : Char) (h : ¬ (65 ≤ c.toNat ∧ c.toNat ≤ 90)) :
    c.toLower = c := by
  unfold Char.toLower
  simp only [ge_iff_le]
  rw [if_neg]
  simpa [Char.toNat] using h

theorem toLowerRune_of_ascii_lower (lo : Char → Char) (c : Char)
    (h : c.toLower.toNat < 128) : toLowerRune lo c = c.toLower := by
  unfold toLowerRune
  by_cases hc : c.toNat < 128
  · simp [hc]
  · exfalso
    rw [toLower_of_not_upper c (by omega)] at h
    exact hc h

theorem not_IsSpace_of_upper (c : Char) (h : 65 ≤ c.toNat ∧ c.toNat ≤ 90) :
    IsSpace c = false := by
  unfold IsSpace
  simp
  omega

theorem head_of_lower_h (c : Char) (h : c.toLower = 'h') : IsSpace c = false ∧ c ≠ '#' := by
  by_cases hu : 65 ≤ c.toNat ∧ c.toNat ≤ 90
  · refine ⟨not_IsSpace_of_upper c hu, ?_⟩
    rintro rfl
    revert hu; decide
  · rw [toLower_of_not_upper c hu] at h
    subst h
    exact ⟨by decide, by decide⟩

/-- A spelling `p` of the prefix with `p.map Char.toLower = "hostname:"` is
lowercased to `hostname:` by `ToLower`, whatever the case table beyond ASCII. -/
theorem ToLower_of_map_toLower (lo : Char → Char) (p q : Str)
    (hq : ∀ c, c ∈ q → c.toNat < 128) (hp : p.map Char.toLower = q) : ToLower lo p = q := by
  subst hp
  unfold ToLower
  apply List.map_congr_left
  intro c hc
  exact toLowerRune_of_ascii_lower lo c (hq _ (List.mem_map_of_mem _ hc))

theorem dropWhile_cons_self {α : Type} (P : α → Bool) (c : α) (cs : List α)
    (h : P c = false) : (c :: cs).dropWhile P = c :: cs := by
  simp [List.dropWhile, h]

theorem head_of_dropWhile_self {α : Type} (P : α → Bool) (c : α) (cs : List α)
    (h : (c :: cs).dropWhile P = c :: cs) : P c = false := by
  by_contra hc
  have hc2 : P c = true := by simpa using hc
  have h1 : (c :: cs).dropWhile P = cs.dropWhile P := by simp [List.dropWhile, hc2]
  have h2 := (List.dropWhile_suffix P (l := cs)).length_le
  rw [← h1, h] at h2
  simp at h2

theorem length_dropWhile_le {α : Type} (P : α → Bool) (l : List α) :
    (l.dropWhile P).length ≤ l.length :=
  (List.dropWhile_suffix P).length_le

theorem dropWhile_eq_of_length {α : Type} (P : α → Bool) (l : List α)
    (h : l.length ≤ (l.dropWhile P).length) : l.dropWhile P = l := by
  cases l with
  | nil => rfl
  | cons c cs =>
    by_cases hc : P c = true
    · exfalso
      have h1 : (c :: cs).dropWhile P = cs.dropWhile P := by simp [List.dropWhile, hc]
      rw [h1] at h
      have := length_dropWhile_le P cs
      simp at h
      omega
    · exact dropWhile_cons_self P c cs (by simpa using hc)

/-- A trimmed string starts and ends with a character that is not white space. -/
theorem trimmed_ends (d : Str) (hd : TrimSpace d = d) :
    d.dropWhile IsSpace = d ∧ d.reverse.dropWhile IsSpace = d.reverse := by
  have h1 : (TrimSpace d).length ≤ (d.dropWhile IsSpace).length := by
    unfold TrimSpace
    rw [List.length_reverse]
    have := length_dropWhile_le IsSpace (d.dropWhile IsSpace).reverse
    simpa using this
  rw [hd] at h1
  have h2 := dropWhile_eq_of_length IsSpace d h1
  refine ⟨h2, ?_⟩
  have h3 : ((d.reverse.dropWhile IsSpace).reverse) = d := by
    have := hd
    unfold TrimSpace at this
    rwa [h2] at this
  have := congrArg List.reverse h3
  simpa using this

theorem TrimSpace_of_ends (s : Str) (h1 : s.dropWhile IsSpace = s)
    (h2 : s.reverse.dropWhile IsSpace = s.reverse) : TrimSpace s = s := by
  unfold TrimSpace
  rw [h1, h2, List.reverse_reverse]

/-- The line `p ++ " " ++ d`, for a trimmed, non-empty `d` and a spelling `p` of
`Hostname:`, is trimmed, and cutting `p` off and trimming leaves `d`. -/
theorem TrimSpace_hostname_line (p d : Str) (hp : p.map Char.toLower = "hostname:".toList)
    (hd : TrimSpace d = d) (hne : d ≠ []) :
    TrimSpace (p ++ ' ' :: d) = p ++ ' ' :: d ∧ TrimSpace ((p ++ ' ' :: d).drop 9) = d ∧
    ∃ c cs, p = c :: cs ∧ IsSpace c = false ∧ c ≠ '#' := by
  obtain ⟨e1, e2⟩ := trimmed_ends d hd
  have hlen : p.length = 9 := by
    have := congrArg List.length hp
    simpa using this
  obtain ⟨c, cs, rfl⟩ : ∃ c cs, p = c :: cs := by
    cases p with
    | nil => simp at hlen
    | cons c cs => exact ⟨c, cs, rfl⟩
  have hc : c.toLower = 'h' := by
    have := congrArg List.head? hp
    simpa using this
  obtain ⟨hs, hhash⟩ := head_of_lower_h c hc
  obtain ⟨x, xs, hx⟩ : ∃ x xs, d.reverse = x :: xs := by
    cases hr : d.reverse with
    | nil => exact absurd (List.reverse_eq_nil_iff.1 hr) hne
    | cons x xs => exact ⟨x, xs, rfl⟩
  have hxs : IsSpace x = false := head_of_dropWhile_self IsSpace x xs (by rw [← hx]; exact e2)
  refine ⟨?_, ?_, c, cs, rfl, hs, hhash⟩
  · apply TrimSpace_of_ends
    · exact dropWhile_cons_self IsSpace c _ hs
    · have : (c :: cs ++ ' ' :: d).reverse = x :: (xs ++ ' ' :: (c :: cs).reverse) := by
        simp [hx]
      rw [this]
      exact dropWhile_cons_self IsSpace x _ hxs
  · have h9 : (c :: cs ++ ' ' :: d).drop 9 = ' ' :: d := by
      rw [List.drop_append_of_le_length (by omega)]
      rw [List.drop_of_length_le (by omega)]
      rfl
    rw [h9]
    unfold TrimSpace
    have : (' ' :: d).dropWhile IsSpace = d := by
      have hsp : IsSpace ' ' = true := by decide
      simp [List.dropWhile, hsp, e1]
    rw [this, e2, List.reverse_reverse]

theorem insertSeen_mem (seen : List Str) (n : Str) : n ∈ insertSeen seen n := by
  unfold insertSeen
  by_cases h : n ∈ seen <;> simp [h]

theorem insertSeen_mono (seen : List Str) (n x : Str) (hx : x ∈ seen) :
    x ∈ insertSeen seen n := by
  unfold insertSeen
  by_cases h : n ∈ seen <;> simp [h, hx]

theorem hydrateLine_mono (lo : Char → Char) (st : List Str × Nat) (text x : Str)
    (hx : x ∈ st.1) : x ∈ (hydrateLine lo st text).1 := by
  unfold hydrateLine
  simp only
  split_ifs <;> first | exact hx | exact insertSeen_mono _ _ _ hx

theorem foldl_hydrateLine_mono (lo : Char → Char) (ts : List Str) :
    ∀ (st : List Str × Nat) (x : Str), x ∈ st.1 → x ∈ (ts.foldl (hydrateLine lo) st).1 := by
  induction ts with
  | nil => intro st x hx; exact hx
  | cons t ts ih =>
    intro st x hx
    exact ih _ x (hydrateLine_mono lo st t x hx)

/-- The loop body on a `Hostname:` line inserts the lowercased name. -/
theorem hydrateLine_hostname (lo : Char → Char) (st : List Str × Nat) (p d : Str)
    (hp : p.map Char.toLower = "hostname:".toList) (hd : TrimSpace d = d) (hne : d ≠ []) :
    hydrateLine lo st (p ++ ' ' :: d) = (insertSeen st.1 (ToLower lo d), st.2 + 1) := by
  obtain ⟨t1, t2, c, cs, rfl, hs, hhash⟩ := TrimSpace_hostname_line p d hp hd hne
  have hlow : ToLower lo (c :: cs) = "hostname:".toList :=
    ToLower_of_map_toLower lo (c :: cs) _ (by decide) hp
  have hpre : HasPrefix (ToLower lo (c :: cs ++ ' ' :: d)) "hostname:".toList = true := by
    have : ToLower lo (c :: cs ++ ' ' :: d) = "hostname:".toList ++ ToLower lo (' ' :: d) := by
      rw [← hlow]
      simp [ToLower]
    rw [this]
    unfold HasPrefix
    rw [List.isPrefixOf_iff_prefix]
    exact List.prefix_append _ _
  have hcond : (decide (c :: cs ++ ' ' :: d = []) || HasPrefix (c :: cs ++ ' ' :: d) "#".toList)
      = false := by
    unfold HasPrefix
    have : ¬ ('#' = c) := fun h => hhash h.symm
    simp [List.isPrefixOf, this]
  unfold hydrateLine
  simp only [t1, hpre, if_true, t2]
  rw [hcond, if_neg Bool.false_ne_true, if_neg hne]

theorem mem_foldl_hydrateLine (lo : Char → Char) (p d : Str)
    (hp : p.map Char.toLower = "hostname:".toList) (hd : TrimSpace d = d) (hne : d ≠ [])
    (ts : List Str) :
    ∀ st : List Str × Nat, p ++ ' ' :: d ∈ ts →
      ToLower lo d ∈ (ts.foldl (hydrateLine lo) st).1 := by
  induction ts with
  | nil => intro st h; simp at h
  | cons t ts ih =>
    intro st h
    rw [List.foldl_cons]
    rcases List.mem_cons.1 h with h | h
    · apply foldl_hydrateLine_mono lo ts
      rw [← h, hydrateLine_hostname lo st p d hp hd hne]
      exact insertSeen_mem _ _
    · exact ih _ h

theorem tasksOf_append (cs ds : List Call) : tasksOf (cs ++ ds) = tasksOf cs ++ tasksOf ds := by
  induction cs with
  | nil => rfl
  | cons c cs ih =>
    cases c with
    | sth r => simpa [tasksOf] using ih
    | raw s e r =>
      cases r with
      | none => simpa [tasksOf] using ih
      | some es =>
        by_cases h : es.length = 0 <;> simp [tasksOf, h, ih]

theorem Chained_le : ∀ (ts : List EntryTask) (s s' : Int), Chained s ts s' → s ≤ s' := by
  intro ts
  induction ts with
  | nil => intro s s' h; simp [Chained] at h; omega
  | cons t ts ih =>
    intro s s' h
    obtain ⟨_, h2, h3⟩ := h
    have := ih _ _ h3
    omega

theorem Chained_append : ∀ (ts us : List EntryTask) (a b c : Int),
    Chained a ts b → Chained b us c → Chained a (ts ++ us) c := by
  intro ts
  induction ts with
  | nil => intro us a b c h1 h2; simp [Chained] at h1; subst h1; exact h2
  | cons t ts ih =>
    intro us a b c h1 h2
    obtain ⟨e1, e2, e3⟩ := h1
    exact ⟨e1, e2, ih us _ b c e3 h2⟩

theorem googleLoop_done (srv : LogServer) (fuel : Nat) (p : Poller) (h : ¬ p.start < p.end_) :
    googleLoop srv fuel p = some p := by
  unfold googleLoop
  simp [h]

theorem googleLoop_error (srv : LogServer) (fuel : Nat) (p : Poller) (h : p.start < p.end_)
    (hr : srv.getRawEntries p.calls.length p.start (batchEnd p) = none) :
    googleLoop srv (fuel + 1) p = some (record p (Call.raw p.start (batchEnd p) none)) := by
  rw [googleLoop]
  simp only [h, if_true, hr]

theorem googleLoop_empty (srv : LogServer) (fuel : Nat) (p : Poller) (h : p.start < p.end_)
    (es : List Nat) (hr : srv.getRawEntries p.calls.length p.start (batchEnd p) = some es)
    (he : es.length = 0) :
    googleLoop srv (fuel + 1) p
      = some (record p (Call.raw p.start (batchEnd p) (some es))) := by
  rw [googleLoop]
  simp only [h, if_true, hr, he]

theorem googleLoop_step (srv : LogServer) (fuel : Nat) (p : Poller) (h : p.start < p.end_)
    (es : List Nat) (hr : srv.getRawEntries p.calls.length p.start (batchEnd p) = some es)
    (he : es.length ≠ 0) :
    googleLoop srv (fuel + 1) p = googleLoop srv fuel (enqueue p (batchEnd p) es) := by
  rw [googleLoop]
  simp only [h, if_true, hr, he, if_false]

theorem batchEnd_bounds (p : Poller) (h : p.start < p.end_) :
    p.start < batchEnd p ∧ batchEnd p - p.start ≤ 32 ∧ batchEnd p ≤ p.end_ := by
  unfold batchEnd
  split <;> omega

/-- The Google loop ends within `end - start` iterations, whatever the server
answers; every request is a chunk of at most 32 entries below `end`, and the
tasks sent are those of the non-empty responses, chained from the cursor. -/
theorem googleLoop_spec (srv : LogServer) :
    ∀ (fuel : Nat) (p : Poller), (p.end_ - p.start).toNat ≤ fuel →
      ∃ p', googleLoop srv fuel p = some p' ∧ p'.end_ = p.end_ ∧
        p'.isGoogle = p.isGoogle ∧ p'.tickerDuration = p.tickerDuration ∧
        ∃ cs, p'.calls = p.calls ++ cs ∧ p'.queue = p.queue ++ tasksOf cs ∧
          Chained p.start (tasksOf cs) p'.start ∧
          ∀ s b resp, Call.raw s b resp ∈ cs →
            p.start ≤ s ∧ s < b ∧ b - s ≤ 32 ∧ b ≤ p.end_ := by
  intro fuel
  induction fuel with
  | zero =>
    intro p hf
    have h : ¬ p.start < p.end_ := by omega
    exact ⟨p, googleLoop_done srv 0 p h, rfl, rfl, rfl, [], by simp, by simp [tasksOf],
      by simp [tasksOf, Chained], by simp⟩
  | succ f ih =>
    intro p hf
    by_cases h : p.start < p.end_
    · obtain ⟨hb1, hb2, hb3⟩ := batchEnd_bounds p h
      cases hr : srv.getRawEntries p.calls.length p.start (batchEnd p) with
      | none =>
        refine ⟨_, googleLoop_error srv f p h hr, rfl, rfl, rfl, _, rfl, by simp [tasksOf, record],
          by simp [tasksOf, Chained, record], ?_⟩
        intro s b resp hm
        simp only [List.mem_singleton, Call.raw.injEq] at hm
        obtain ⟨rfl, rfl, _⟩ := hm
        exact ⟨le_refl _, hb1, hb2, hb3⟩
      | some es =>
        by_cases he : es.length = 0
        · refine ⟨_, googleLoop_empty srv f p h es hr he, rfl, rfl, rfl, _, rfl,
            by simp [tasksOf, he, record], by simp [tasksOf, he, Chained, record], ?_⟩
          intro s b resp hm
          simp only [List.mem_singleton, Call.raw.injEq] at hm
          obtain ⟨rfl, rfl, _⟩ := hm
          exact ⟨le_refl _, hb1, hb2, hb3⟩
        · rw [googleLoop_step srv f p h es hr he]
          have hpos : 1 ≤ es.length := Nat.one_le_iff_ne_zero.2 he
          obtain ⟨p', e1, e2, e3, e4, cs, e5, e6, e7, e8⟩ := ih (enqueue p (batchEnd p) es)
            (by simp only [enqueue]; omega)
          refine ⟨p', e1, e2, e3, e4, Call.raw p.start (batchEnd p) (some es) :: cs,
            by simpa [enqueue] using e5, by simpa [tasksOf, he, enqueue] using e6, ?_, ?_⟩
          · simp only [tasksOf, he, if_false]
            exact ⟨rfl, hpos, e7⟩
          · intro s b resp hm
            rcases List.mem_cons.1 hm with hm | hm
            · simp only [Call.raw.injEq] at hm
              obtain ⟨rfl, rfl, _⟩ := hm
              exact ⟨le_refl _, hb1, hb2, hb3⟩
            · obtain ⟨a1, a2, a3, a4⟩ := e8 s b resp hm
              simp only [enqueue] at a1 a4
              exact ⟨by omega, a2, a3, a4⟩
    · exact ⟨p, googleLoop_done srv _ p h, rfl, rfl, rfl, [], by simp, by simp [tasksOf],
        by simp [tasksOf, Chained], by simp⟩

/-- One tick returns, whatever the server answers: it makes the calls `cs`,
sends the tasks of their non-empty responses, chained from the cursor, and
requests only ranges that start at or after the cursor and are not empty. -/
theorem tick_spec (srv : LogServer) (p : Poller) :
    ∃ p', tick srv p = some p' ∧ p'.isGoogle = p.isGoogle ∧
      ∃ cs, p'.calls = p.calls ++ cs ∧ p'.queue = p.queue ++ tasksOf cs ∧
        Chained p.start (tasksOf cs) p'.start ∧
        ∀ s b resp, Call.raw s b resp ∈ cs →
          p.start ≤ s ∧ s < b ∧ b ≤ p.end_ ∧ (p.isGoogle = true → b - s ≤ 32) := by
  unfold tick
  by_cases h1 : p.start ≥ p.end_
  · simp only [h1, if_true]
    unfold fetchAndUpdateSTH
    cases srv.getSTH p.calls.length with
    | none =>
      exact ⟨_, rfl, rfl, [Call.sth none], rfl, by simp [tasksOf, record],
        by simp [tasksOf, Chained, record], by simp⟩
    | some size =>
      exact ⟨_, rfl, rfl, [Call.sth (some size)], rfl, by simp [tasksOf, record],
        by simp [tasksOf, Chained, record], by simp⟩
  · simp only [h1, if_false]
    by_cases hg : p.isGoogle = true
    · rw [if_pos hg]
      obtain ⟨p', e1, _, e3, _, cs, e5, e6, e7, e8⟩ :=
        googleLoop_spec srv (p.end_ - p.start).toNat p (le_refl _)
      refine ⟨p', e1, by rw [e3, hg], cs, e5, e6, e7, ?_⟩
      intro s b resp hm
      obtain ⟨a1, a2, a3, a4⟩ := e8 s b resp hm
      exact ⟨a1, a2, a4, fun _ => a3⟩
    · rw [if_neg hg]
      have hlt : p.start < p.end_ := by omega
      have hcall : ∀ resp0, ∀ s b resp, Call.raw s b resp ∈ [Call.raw p.start p.end_ resp0] →
          p.start ≤ s ∧ s < b ∧ b ≤ p.end_ ∧ (p.isGoogle = true → b - s ≤ 32) := by
        intro resp0 s b resp hm
        simp only [List.mem_singleton, Call.raw.injEq] at hm
        obtain ⟨rfl, rfl, _⟩ := hm
        exact ⟨le_refl _, hlt, le_refl _, fun h => absurd h hg⟩
      cases hr : srv.getRawEntries p.calls.length p.start p.end_ with
      | none =>
        exact ⟨_, rfl, rfl, [Call.raw p.start p.end_ none], rfl, by simp [tasksOf, record],
          by simp [tasksOf, Chained, record], hcall _⟩
      | some es =>
        by_cases he : es.length > 0
        · simp only [Bool.false_eq_true, if_false, he, if_true]
          have he0 : es.length ≠ 0 := by omega
          refine ⟨_, rfl, rfl, [Call.raw p.start p.end_ (some es)], rfl,
            by simp [tasksOf, he0, enqueue], ?_, hcall _⟩
          simp only [tasksOf, he0, if_false]
          exact ⟨rfl, Nat.one_le_iff_ne_zero.2 he0, rfl⟩
        · simp only [Bool.false_eq_true, if_false, he]
          have he0 : es.length = 0 := by omega
          exact ⟨_, rfl, rfl, [Call.raw p.start p.end_ (some es)], rfl,
            by simp [tasksOf, he0, record], by simp [tasksOf, he0, Chained, record], hcall _⟩

/-- Any number of ticks returns; the cursor never moves back and the tasks sent
are chained from the cursor at the start to the cursor at the end. -/
theorem steady_spec (srv : LogServer) :
    ∀ (n : Nat) (p : Poller),
      ∃ p', steady srv n p = some p' ∧ p'.isGoogle = p.isGoogle ∧
        ∃ cs, p'.calls = p.calls ++ cs ∧ p'.queue = p.queue ++ tasksOf cs ∧
          Chained p.start (tasksOf cs) p'.start ∧
          ∀ s b resp, Call.raw s b resp ∈ cs → p.start ≤ s ∧ s < b := by
  intro n
  induction n with
  | zero =>
    intro p
    exact ⟨p, rfl, rfl, [], by simp, by simp [tasksOf], by simp [tasksOf, Chained], by simp⟩
  | succ n ih =>
    intro p
    obtain ⟨p1, e1, e2, cs1, e3, e4, e5, e6⟩ := tick_spec srv p
    obtain ⟨p2, f1, f2, cs2, f3, f4, f5, f6⟩ := ih p1
    refine ⟨p2, by simp [steady, e1, f1], by rw [f2, e2], cs1 ++ cs2,
      by rw [f3, e3, List.append_assoc], by rw [f4, e4, tasksOf_append, List.append_assoc],
      by rw [tasksOf_append]; exact Chained_append _ _ _ _ _ e5 f5, ?_⟩
    intro s b resp hm
    rcases List.mem_append.1 hm with hm | hm
    · obtain ⟨a1, a2, _⟩ := e6 s b resp hm
      exact ⟨a1, a2⟩
    · obtain ⟨a1, a2⟩ := f6 s b resp hm
      have := Chained_le _ _ _ e5
      exact ⟨by omega, a2⟩

/-- From a cursor that is not negative every request of the steady-state loop has
`0 ≤ start < end`. -/
theorem steady_requests_valid (srv : LogServer) (n : Nat) (p : Poller) (h0 : 0 ≤ p.start) :
    ∃ p', steady srv n p = some p' ∧
      ∃ cs, p'.calls = p.calls ++ cs ∧
        ∀ s b resp, Call.raw s b resp ∈ cs → 0 ≤ s ∧ s < b := by
  obtain ⟨p', e1, _, cs, e3, _, _, e6⟩ := steady_spec srv n p
  refine ⟨p', e1, cs, e3, ?_⟩
  intro s b resp hm
  obtain ⟨a1, a2⟩ := e6 s b resp hm
  exact ⟨by omega, a2⟩

/-- C5. The interval `scanLog` selects depends on the order in which `range`
yields the entries of the rate-limit map: for a name that contains both `Google`
and `Sectigo` the order of the source text gives 1 ms, and the same entries
yielded from `Sectigo` on, an order `range` may equally produce, give 4 s. -/
theorem tickerDuration_depends_on_range_order :
    (defaultRateLimit.rotate 1).Perm defaultRateLimit ∧
    (defaultRateLimit.rotate 1).map Prod.fst
      = ["Sectigo".toList, "Let's Encrypt".toList, "DigiCert".toList, "TrustAsia".toList,
         "Cloudflare".toList, "Google".toList] ∧
    tickerDuration defaultRateLimit "Google Sectigo".toList = Millisecond ∧
    tickerDuration (defaultRateLimit.rotate 1) "Google Sectigo".toList = 4 * Second ∧
    (scanLog (fullServer 100) (ticksOnly 0) defaultRateLimit "Google Sectigo".toList).map
        (fun p => (p.tickerDuration, p.isGoogle)) = some (Millisecond, true) ∧
    (scanLog (fullServer 100) (ticksOnly 0) (defaultRateLimit.rotate 1)
        "Google Sectigo".toList).map (fun p => (p.tickerDuration, p.isGoogle))
      = some (4 * Second, true) := by
  refine ⟨List.rotate_perm _ _, by decide, by decide, by decide, by decide, by decide⟩

/-- The interval selected is that of the first entry, in the order of `range`,
whose key occurs in the name, and one second when no key occurs in it. -/
theorem tickerDuration_first_match (iter : List (Str × Nat)) (name : Str) :
    (∃ pre kv post, iter = pre ++ kv :: post ∧ Contains name kv.1 = true ∧
        (∀ x, x ∈ pre → Contains name x.1 = false) ∧ tickerDuration iter name = kv.2) ∨
    ((∀ x, x ∈ iter → Contains name x.1 = false) ∧ tickerDuration iter name = Second) := by
  induction iter with
  | nil => right; exact ⟨by simp, rfl⟩
  | cons kv rest ih =>
    by_cases h : Contains name kv.1 = true
    · left
      exact ⟨[], kv, rest, rfl, h, by simp, by simp [tickerDuration, h]⟩
    · have hf : Contains name kv.1 = false := by simpa using h
      rcases ih with ⟨pre, kv', post, e1, e2, e3, e4⟩ | ⟨e1, e2⟩
      · left
        refine ⟨kv :: pre, kv', post, by rw [e1]; rfl, e2, ?_, by simp [tickerDuration, hf, e4]⟩
        intro x hx
        rcases List.mem_cons.1 hx with rfl | hx
        · exact hf
        · exact e3 x hx
      · right
        refine ⟨?_, by simp [tickerDuration, hf, e2]⟩
        intro x hx
        rcases List.mem_cons.1 hx with rfl | hx
        · exact hf
        · exact e1 x hx

/-- When the entries whose key occurs in the name all carry the interval `v`,
every order of `range` selects `v`: the order matters only for names in which
keys with different intervals occur. -/
theorem tickerDuration_of_agreeing (iter : List (Str × Nat)) (name : Str) (v : Nat)
    (hv : ∀ x, x ∈ iter → Contains name x.1 = true → x.2 = v)
    (hex : ∃ x, x ∈ iter ∧ Contains name x.1 = true) : tickerDuration iter name = v := by
  rcases tickerDuration_first_match iter name with ⟨pre, kv, post, e1, e2, _, e4⟩ | ⟨e1, _⟩
  · rw [e4]
    exact hv kv (by rw [e1]; simp) e2
  · obtain ⟨x, hx, hc⟩ := hex
    rw [e1 x hx] at hc
    exact absurd hc Bool.false_ne_true

/-- C6. After three failed attempts to fetch the tree size, with the context
still live, `scanLog` does not return: it goes on with `end = 0`, `start = -20`
and calls `GetRawEntries(-20, 0)` on every tick, for a Google poller as well. -/
theorem scanLog_polls_after_three_failed_STH :
    scanLog deadServer (ticksOnly 2) defaultRateLimit "Sectigo Sabre".toList
      = some (Poller.mk (4 * Second) false (-20) 0
          [Call.sth none, Call.sth none, Call.sth none, Call.raw (-20) 0 none,
           Call.raw (-20) 0 none] []) ∧
    scanLog deadServer (ticksOnly 1) defaultRateLimit "Google Argon".toList
      = some (Poller.mk Millisecond true (-20) 0
          [Call.sth none, Call.sth none, Call.sth none, Call.raw (-20) 0 none] []) := by
  refine ⟨by decide, by decide⟩

/-- C10. With an initial tree size of 5 the cursor is initialised to `5 - 20`
and the first tick calls `GetRawEntries(-15, 5)`: the start index is negative. -/
theorem scanLog_negative_start_on_small_tree :
    scanLog (sizeOnlyServer 5) (ticksOnly 1) defaultRateLimit "Sectigo Sabre".toList
      = some (Poller.mk (4 * Second) false (-15) 5
          [Call.sth (some 5), Call.raw (-15) 5 none] []) ∧
    scanLog (sizeOnlyServer 0) (ticksOnly 1) defaultRateLimit "Google Argon".toList
      = some (Poller.mk Millisecond true (-20) 0
          [Call.sth (some 0), Call.raw (-20) 0 none] []) := by
  refine ⟨by decide, by decide⟩

/-! ### The supervisor -/

/-- C9, as stated, fails: a task sent before the restart and not yet received is
still on the channel when the workers of the new epoch start, and the first
receive of the new epoch hands it to `processEntries`. -/
theorem restart_discards_pending_counterexample :
    (run (initialSupervisor 100)
        [Action.send { Entries := [7], Index := 80 }, Action.restart]).chan
      = [{ task := { Entries := [7], Index := 80 }, sentIn := 0 }] ∧
    (run (initialSupervisor 100)
        [Action.send { Entries := [7], Index := 80 }, Action.restart, Action.recv]).processed
      = [({ task := { Entries := [7], Index := 80 }, sentIn := 0 }, 1)] := by
  refine ⟨by decide, by decide⟩

/-- Receiving `k` times hands the first `k` tasks of the channel, in order, to
`processEntries` in the current epoch. -/
theorem run_recv (k : Nat) :
    ∀ s : Supervisor,
      (run s (List.replicate k Action.recv)).processed
          = s.processed ++ (s.chan.take k).map (fun t => (t, s.epoch)) ∧
        (run s (List.replicate k Action.recv)).chan = s.chan.drop k ∧
        (run s (List.replicate k Action.recv)).epoch = s.epoch := by
  induction k with
  | zero => intro s; simp [run]
  | succ k ih =>
    intro s
    have hrun : run s (List.replicate (k + 1) Action.recv)
        = run (step s Action.recv) (List.replicate k Action.recv) := rfl
    rw [hrun]
    obtain ⟨h1, h2, h3⟩ := ih (step s Action.recv)
    cases hc : s.chan with
    | nil =>
      have hs : step s Action.recv = s := by simp [step, hc]
      rw [hs] at h1 h2 h3
      rw [hs, h1, h2, h3, hc]
      simp
    | cons t ts =>
      have e1 : (step s Action.recv).chan = ts := by simp [step, hc]
      have e2 : (step s Action.recv).processed = s.processed ++ [(t, s.epoch)] := by
        simp [step, hc]
      have e3 : (step s Action.recv).epoch = s.epoch := by simp [step, hc]
      rw [h1, h2, h3, e1, e2, e3]
      simp

/-- C9, amended. Handling a restart pulse renews the epoch and leaves the task
channel as it is: the tasks sent before the cancellation and not yet received
stay queued, in order, and the first receives of the new epoch hand them, in
that order, to `processEntries`. -/
theorem restart_keeps_task_channel (s : Supervisor) (k : Nat) :
    (step s Action.restart).chan = s.chan ∧
    (step s Action.restart).epoch = s.epoch + 1 ∧
    (step s Action.restart).processed = s.processed ∧
    (run (step s Action.restart) (List.replicate k Action.recv)).processed
      = s.processed ++ (s.chan.take k).map (fun t => (t, s.epoch + 1)) ∧
    (run (step s Action.restart) (List.replicate k Action.recv)).chan = s.chan.drop k := by
  obtain ⟨h1, h2, _⟩ := run_recv k (step s Action.restart)
  exact ⟨rfl, rfl, rfl, h1, h2⟩

/-! ### From `persistDomain` to the scanner -/

theorem rawLines_ne_nil (s : Str) (h : s ≠ []) : rawLines s ≠ [] := by
  cases s with
  | nil => exact absurd rfl h
  | cons c cs =>
    unfold rawLines
    split
    · simp
    · split <;> simp

theorem rawLines_cons_other (c : Char) (cs : Str) (hc : c ≠ '\n') (l : Str) (ls : List Str)
    (h : rawLines cs = l :: ls) : rawLines (c :: cs) = (c :: l) :: ls := by
  rw [rawLines, if_neg hc, h]

theorem rawLines_line (line : Str) (h : '\n' ∉ line) : rawLines (line ++ ['\n']) = [line] := by
  induction line with
  | nil => simp [rawLines]
  | cons c cs ih =>
    have hc : c ≠ '\n' := fun e => h (by simp [e])
    have hcs : '\n' ∉ cs := fun e => h (List.mem_cons_of_mem _ e)
    exact rawLines_cons_other c _ hc cs [] (ih hcs)

/-- A line appended to a file that is empty or ends with a line feed is a piece
of its own for `bufio.ScanLines`. -/
theorem rawLines_append_line (line : Str) (h : '\n' ∉ line) :
    ∀ pre : Str, (pre = [] ∨ pre.getLast? = some '\n') →
      rawLines (pre ++ (line ++ ['\n'])) = rawLines pre ++ [line] := by
  intro pre
  induction pre with
  | nil => intro _; simpa [rawLines] using rawLines_line line h
  | cons c cs ih =>
    intro hp
    have hlast : (c :: cs).getLast? = some '\n' := by
      rcases hp with hp | hp
      · exact absurd hp (by simp)
      · exact hp
    by_cases hc : c = '\n'
    · subst hc
      have hcs : cs = [] ∨ cs.getLast? = some '\n' := by
        cases cs with
        | nil => exact Or.inl rfl
        | cons x xs => right; simpa [List.getLast?_cons_cons] using hlast
      have := ih hcs
      simp [rawLines, this]
    · have hne : cs ≠ [] := by
        rintro rfl
        simp at hlast
        exact hc hlast
      have hcs : cs.getLast? = some '\n' := by
        cases cs with
        | nil => exact absurd rfl hne
        | cons x xs => simpa [List.getLast?_cons_cons] using hlast
      obtain ⟨l, ls, hl⟩ : ∃ l ls, rawLines cs = l :: ls := by
        cases hr : rawLines cs with
        | nil => exact absurd hr (rawLines_ne_nil cs hne)
        | cons l ls => exact ⟨l, ls, rfl⟩
      have h1 := ih (Or.inr hcs)
      rw [hl] at h1
      rw [List.cons_append, rawLines_cons_other c _ hc l (ls ++ [line]) (by simpa using h1),
        rawLines_cons_other c cs hc l ls hl]
      rfl

theorem scanTokens_append_line (line : Str) (h : utf8Len line < MaxScanTokenSize) :
    ∀ ps : List Str, (scanTokens ps).2 = false →
      scanTokens (ps ++ [line]) = ((scanTokens ps).1 ++ [dropCR line], false) := by
  intro ps
  induction ps with
  | nil =>
    intro _
    simp [scanTokens, Nat.not_le.2 h]
  | cons p ps ih =>
    intro hp
    by_cases hbig : MaxScanTokenSize ≤ utf8Len p
    · simp [scanTokens, hbig] at hp
    · have hp2 : (scanTokens ps).2 = false := by simpa [scanTokens, hbig] using hp
      simp [scanTokens, hbig, ih hp2]

theorem utf8Len_append (a b : Str) : utf8Len (a ++ b) = utf8Len a + utf8Len b := by
  simp [utf8Len]

/-- The line that `persistDomain` writes for a trimmed, non-empty name does not
end with a carriage return. -/
theorem dropCR_hostname_line (d : Str) (hd : TrimSpace d = d) (hne : d ≠ []) :
    dropCR ("Hostname: ".toList ++ d) = "Hostname: ".toList ++ d := by
  obtain ⟨_, e2⟩ := trimmed_ends d hd
  obtain ⟨x, xs, hx⟩ : ∃ x xs, d.reverse = x :: xs := by
    cases hr : d.reverse with
    | nil => exact absurd (List.reverse_eq_nil_iff.1 hr) hne
    | cons x xs => exact ⟨x, xs, rfl⟩
  have hxs : IsSpace x = false := head_of_dropWhile_self IsSpace x xs (by rw [← hx]; exact e2)
  have hd2 : d = xs.reverse ++ [x] := by
    have := congrArg List.reverse hx
    simpa using this
  have hlast : ("Hostname: ".toList ++ d).getLast? = some x := by
    rw [hd2, ← List.append_assoc, List.getLast?_append]
    simp
  unfold dropCR
  rw [hlast, if_neg]
  intro h
  have : x = '\r' := by simpa using h
  subst this
  exact absurd hxs (by decide)

/-- Persistence followed by hydration. For a trimmed, non-empty name `d` without
line feed whose line fits the scanner buffer, appended to a file that is empty
or made of complete lines the scanner accepts, `loadResultsFromFile` on the new
content puts the lowercased `d` into the seen set. -/
theorem persisted_line_is_hydrated (lo : Char → Char) (r : Runner) (pre d : Str)
    (hd : TrimSpace d = d) (hne : d ≠ []) (hnl : '\n' ∉ d)
    (hfit : utf8Len d + 10 < MaxScanTokenSize)
    (hpre : pre = [] ∨ pre.getLast? = some '\n') (hok : (scanLines pre).2 = false) :
    "Hostname: ".toList ++ d
        ∈ (scanLines (pre ++ ("Hostname: ".toList ++ d ++ "\n".toList))).1 ∧
    (scanLines (pre ++ ("Hostname: ".toList ++ d ++ "\n".toList))).2 = false ∧
    ToLower lo d ∈ (loadResultsFromFile lo r
        (pre ++ ("Hostname: ".toList ++ d ++ "\n".toList))).1.seenDomain := by
  have hline : '\n' ∉ "Hostname: ".toList ++ d := by
    intro h
    rcases List.mem_append.1 h with h | h
    · revert h; decide
    · exact hnl h
  have hlen : utf8Len ("Hostname: ".toList ++ d) < MaxScanTokenSize := by
    rw [utf8Len_append]
    have : utf8Len "Hostname: ".toList = 10 := by decide
    omega
  have hscan : scanLines (pre ++ ("Hostname: ".toList ++ d ++ "\n".toList))
      = ((scanLines pre).1 ++ ["Hostname: ".toList ++ d], false) := by
    unfold scanLines at hok ⊢
    have : "\n".toList = ['\n'] := rfl
    rw [this, rawLines_append_line _ hline pre hpre, scanTokens_append_line _ hlen _ hok,
      dropCR_hostname_line d hd hne]
  have hmem : "Hostname: ".toList ++ d
      ∈ (scanLines (pre ++ ("Hostname: ".toList ++ d ++ "\n".toList))).1 := by
    rw [hscan]; simp
  refine ⟨hmem, by rw [hscan], ?_⟩
  unfold loadResultsFromFile
  have hp : "Hostname:".toList.map Char.toLower = "hostname:".toList := by decide
  have he : "Hostname: ".toList ++ d = "Hostname:".toList ++ ' ' :: d := by
    simp
  rw [he] at hmem
  exact mem_foldl_hydrateLine lo "Hostname:".toList d hp hd hne _ _ hmem
end Heimdall
